import Mathlib

/-!
Shallow embedding of `src/json/json.h` (lightweight C++ JSON/BSON value
representation, comparisons, parser and serializer).

Modelling conventions:
* `double` payloads are modelled as `ℚ` (the exact real value held by the
  number); IEEE rounding, NaN and infinities are outside the model.
* C strings are modelled as `List Char` (the characters before the
  terminating NUL); `size` fields are the list length.
* Byte blobs are `List Nat`, 32/64-bit integers and `time_t` are `Int`.
* The `json::object*` payload of an Object-tagged element is an abstract
  pointer; it is modelled as a `Nat` address, compared by identity, exactly
  as the source compares the raw pointers.
* `std::istream` is modelled as a `List Char`; reading a character with
  `skipws` set drops leading whitespace.  Assertion failures (`ensure`) and
  reads past the end of the stream are modelled as `Except.error`.
-/

/-- The `json_element_type` enum of the source, in declaration order
(`JSON_ONLY` is not defined, so the BSON extension tags are present). -/
inductive json_element_type where
  | JSON_STRING
  | JSON_NUMBER
  | JSON_OBJECT
  | JSON_ARRAY
  | JSON_TRUE
  | JSON_FALSE
  | JSON_NULL
  | JSON_BYTE
  | JSON_INT32
  | JSON_INT64
  | JSON_DATE
  | JSON_UNDEFINED
  deriving DecidableEq, Repr

/-- Ordinal of an enum constant, as assigned by the C compiler. -/
def json_element_type.toNat : json_element_type → Nat
  | .JSON_STRING => 0
  | .JSON_NUMBER => 1
  | .JSON_OBJECT => 2
  | .JSON_ARRAY => 3
  | .JSON_TRUE => 4
  | .JSON_FALSE => 5
  | .JSON_NULL => 6
  | .JSON_BYTE => 7
  | .JSON_INT32 => 8
  | .JSON_INT64 => 9
  | .JSON_DATE => 10
  | .JSON_UNDEFINED => 11

/-- A `json::element` / `json::value`: the type tag together with the active
union member.  In the source the tag and the union are separate fields kept
in sync; the inductive merges them, one constructor per tag. -/
inductive value where
  | string : List Char → value
  | number : ℚ → value
  | object : Nat → value
  | array : List value → value
  | true_ : value
  | false_ : value
  | null : value
  | byte : List Nat → value
  | int32 : Int → value
  | int64 : Int → value
  | date : Int → value
  | undefined : value

/-- The `type` field of an element. -/
def value.type : value → json_element_type
  | .string _ => .JSON_STRING
  | .number _ => .JSON_NUMBER
  | .object _ => .JSON_OBJECT
  | .array _ => .JSON_ARRAY
  | .true_ => .JSON_TRUE
  | .false_ => .JSON_FALSE
  | .null => .JSON_NULL
  | .byte _ => .JSON_BYTE
  | .int32 _ => .JSON_INT32
  | .int64 _ => .JSON_INT64
  | .date _ => .JSON_DATE
  | .undefined => .JSON_UNDEFINED

/-- C `strcmp` on the modelled strings, collapsed to its sign (the source
only ever tests `== 0` and `< 0`).  Characters compare as unsigned bytes;
the implicit terminating NUL makes a strict initial segment compare as smaller. -/
def strcmp : List Char → List Char → Int
  | [], [] => 0
  | [], _ :: _ => -1
  | _ :: _, [] => 1
  | a :: as, b :: bs =>
    if a.toNat < b.toNat then -1
    else if b.toNat < a.toNat then 1
    else strcmp as bs

/-- `operator==(const string&, const string&)`:
`s.size == t.size && 0 == strcmp(s.data, t.data)`. -/
def string_eq (s t : List Char) : Bool :=
  s.length == t.length && strcmp s t == 0

/-- `operator<(const string&, const string&)`: `strcmp(s.data, t.data) < 0`
(the size fields are not consulted). -/
def string_lt (s t : List Char) : Bool :=
  decide (strcmp s t < 0)

/-- `operator==(const byte&, const byte&)`:
`a.size == b.size && 0 == memcmp(a.data, b.data, a.size)`. -/
def byte_eq (a b : List Nat) : Bool :=
  a.length == b.length && a == b

/-- `operator<(const byte&, const byte&)`:
`std::lexicographical_compare` over the byte ranges. -/
def byte_lt : List Nat → List Nat → Bool
  | _, [] => false
  | [], _ :: _ => true
  | a :: as, b :: bs =>
    if a < b then true
    else if b < a then false
    else byte_lt as bs

mutual
/-- `operator==(const element&, const element&)`: dispatch on the tag;
different tags compare unequal, `JSON_NULL` is unequal even to itself
("just like javascript"), and `JSON_UNDEFINED` falls through every branch
of the conditional chain to the final `false`. -/
def eq_element : value → value → Bool
  | .string s, .string t => string_eq s t
  | .number x, .number y => x == y
  | .object p, .object q => p == q
  | .array xs, .array ys => xs.length == ys.length && eq_elements xs ys
  | .true_, .true_ => true
  | .false_, .false_ => true
  | .null, .null => false
  | .byte a, .byte b => byte_eq a b
  | .int32 a, .int32 b => a == b
  | .int64 a, .int64 b => a == b
  | .date a, .date b => a == b
  | .undefined, .undefined => false
  | _, _ => false
termination_by structural a => a

/-- `std::equal(a.element, a.element + a.size, b.element)` with the
element-wise `operator==`; only reached behind the `a.size == b.size`
guard of the array case. -/
def eq_elements : List value → List value → Bool
  | [], _ => true
  | _ :: _, [] => true
  | x :: xs, y :: ys => eq_element x y && eq_elements xs ys
termination_by structural xs => xs
end

mutual
/-- `operator<(const element&, const element&)`: `a.type < b.type` is
decided first (lower enum ordinal sorts first); only equal tags reach the
per-payload chain.  Same-tag `JSON_TRUE`, `JSON_FALSE`, `JSON_NULL` and
`JSON_UNDEFINED` all yield `false` (for `JSON_FALSE` the chain tests
`b.type == JSON_TRUE`, which is false when the tags are equal). -/
def lt_element : value → value → Bool
  | .string s, .string t => string_lt s t
  | .number x, .number y => decide (x < y)
  | .object p, .object q => decide (p < q)
  | .array xs, .array ys => lt_elements xs ys
  | .true_, .true_ => false
  | .false_, .false_ => false
  | .null, .null => false
  | .byte a, .byte b => byte_lt a b
  | .int32 a, .int32 b => decide (a < b)
  | .int64 a, .int64 b => decide (a < b)
  | .date a, .date b => decide (a < b)
  | .undefined, .undefined => false
  | a, b => decide (a.type.toNat < b.type.toNat)
termination_by a b => sizeOf a + sizeOf b

/-- `std::lexicographical_compare` over the two element ranges with the
element-wise `operator<`. -/
def lt_elements : List value → List value → Bool
  | _, [] => false
  | [], _ :: _ => true
  | x :: xs, y :: ys =>
    if lt_element x y then true
    else if lt_element y x then false
    else lt_elements xs ys
termination_by xs ys => sizeOf xs + sizeOf ys
end

/-- `value::operator bool()`: `type != JSON_UNDEFINED`. -/
def value.toBool (v : value) : Bool :=
  v.type != .JSON_UNDEFINED

/-- Elements of an array-tagged value (`data.array`); empty for any other
tag.  Used to state the array-mutation claims. -/
def value.elements : value → List value
  | .array xs => xs
  | _ => []

/-- `data.array.size` of an array-tagged value. -/
def value.size (v : value) : Nat :=
  v.elements.length

/-- `value::operator[](size_t)`, with the source's out-of-range/wrong-tag
undefined behaviour rendered as `JSON_UNDEFINED`. -/
def value.index (v : value) (i : Nat) : value :=
  v.elements.getD i .undefined

/-- `value::push_back_array(const json::element&)` (reached through
`value::push_back`): an undefined value becomes a singleton array, an array
grows by one slot at the end, and any other value is first coerced into a
2-element array `[old value, new element]`. -/
def push_back_array (v : value) (element : value) : value :=
  if v.type = .JSON_UNDEFINED then
    .array [element]
  else if v.type ≠ .JSON_ARRAY then
    .array [v, element]
  else
    .array (v.elements ++ [element])

/-- `value::push_back_array(const array&)`: an undefined value becomes a
copy of the appended array, a non-array value is first coerced into the
singleton array `[old value]`, and then the appended elements are copied
behind the existing ones. -/
def push_back_array_arr (v : value) (arr : List value) : value :=
  if v.type = .JSON_UNDEFINED then
    .array arr
  else if v.type ≠ .JSON_ARRAY then
    .array ([v] ++ arr)
  else
    .array (v.elements ++ arr)

/-- `value::value(int n)` → `construct_array(n)`: an array of `n` slots,
each initialised to `JSON_UNDEFINED` by the construction loop. -/
def construct_array : Nat → List value
  | 0 => []
  | n + 1 => .undefined :: construct_array n

/-- The value built by `value::value(int n)`. -/
def value_of_int (n : Nat) : value :=
  .array (construct_array n)

/-! ### Parser (`namespace json::parse`)

The `std::istream` is a `List Char`.  `ensure` failures and reads hitting
the end of the stream are modelled as `Except.error ParseErr.fatal`; the
`fuel` parameters bound recursion depth and `ParseErr.fuel` marks
exhaustion (never reached from the wrappers, which supply ample fuel). -/

inductive ParseErr where
  | fatal
  | fuel
  deriving DecidableEq, Repr

/-- The whitespace class of `std::isspace` in the default locale, used by
`operator>>` with `skipws` set. -/
def isSpaceChar (c : Char) : Bool :=
  c.toNat = 32 || c.toNat = 9 || c.toNat = 10 || c.toNat = 11 || c.toNat = 12 || c.toNat = 13

/-- `is >> std::skipws >> c`: skip whitespace, then extract one character;
`none` models extraction failure at end of stream. -/
def nextChar (s : List Char) : Option (Char × List Char) :=
  match s.dropWhile isSpaceChar with
  | [] => none
  | c :: r => some (c, r)

/-- `ensure (eat(c, is))`: `eat` extracts one character and compares it to
`c`; a mismatch (or exhausted stream) trips the assertion. -/
def eat (c : Char) (s : List Char) : Except ParseErr (List Char) :=
  match nextChar s with
  | none => .error .fatal
  | some (c', r) => if c = c' then .ok r else .error .fatal

/-- The double-quote character. -/
def quoteD : Char := Char.ofNat 34

/-- The single-quote character. -/
def quoteS : Char := Char.ofNat 39

/-- The opening-brace character. -/
def braceL : Char := Char.ofNat 123

/-- The closing-brace character. -/
def braceR : Char := Char.ofNat 125

/-- `read_string`: copy characters until a quote, with `skipws` still set
on the stream, so whitespace inside the quotes is skipped as well; no
escape handling.  An unterminated string makes the source loop forever on
the failed stream; that divergence is modelled as a fatal error. -/
def read_string (fuel : Nat) (acc s : List Char) : Except ParseErr (List Char × List Char) :=
  match fuel with
  | 0 => .error .fuel
  | fuel + 1 =>
    match nextChar s with
    | none => .error .fatal
    | some (c, r) =>
      if c = quoteD ∨ c = quoteS then .ok (acc, r)
      else read_string fuel (acc ++ [c]) r

/-- ASCII decimal digit test. -/
def isDigitChar (c : Char) : Bool :=
  48 ≤ c.toNat && c.toNat ≤ 57

/-- Scan a maximal run of decimal digits, returning the accumulated value,
the count of digits consumed and the rest of the stream. -/
def takeDigits (acc cnt : Nat) : List Char → Nat × Nat × List Char
  | [] => (acc, cnt, [])
  | c :: r =>
    if isDigitChar c then takeDigits (acc * 10 + (c.toNat - 48)) (cnt + 1) r
    else (acc, cnt, c :: r)

/-- The exact rational value `±(ip.fp)ᴇex` denoted by a parsed literal,
assembled with integer arithmetic (`mkRat`). -/
def literalValue (neg : Bool) (ip fp fc : Nat) (ex : Int) : ℚ :=
  let base : Nat := ip * 10 ^ fc + fp
  let num : Int := if neg then -(base : Int) else (base : Int)
  if 0 ≤ ex then mkRat (num * 10 ^ ex.toNat) (10 ^ fc)
  else mkRat num (10 ^ fc * 10 ^ (-ex).toNat)

/-- The sign stage of `num_get` double extraction. -/
def parseSign : List Char → Bool × List Char
  | [] => (false, [])
  | c :: r =>
    if c = '-' then (true, r)
    else if c = '+' then (false, r)
    else (false, c :: r)

/-- The optional fraction stage (a `.` followed by digits). -/
def parseFrac : List Char → Nat × Nat × List Char
  | [] => (0, 0, [])
  | c :: r => if c = '.' then takeDigits 0 0 r else (0, 0, c :: r)

/-- The optional exponent stage (`e`/`E`, optional sign, digits); with no
digits after the marker the marker is not consumed. -/
def parseExpTail : List Char → Int × List Char
  | [] => (0, [])
  | c :: r =>
    if c = 'e' ∨ c = 'E' then
      match r with
      | [] => (0, c :: r)
      | d :: r2 =>
        if d = '-' then
          match takeDigits 0 0 r2 with
          | (e, ec, r3) => if ec = 0 then (0, c :: r) else (-(e : Int), r3)
        else if d = '+' then
          match takeDigits 0 0 r2 with
          | (e, ec, r3) => if ec = 0 then (0, c :: r) else ((e : Int), r3)
        else
          match takeDigits 0 0 r with
          | (e, ec, r3) => if ec = 0 then (0, c :: r) else ((e : Int), r3)
    else (0, c :: r)

/-- `is >> v.data.number` (`num_get` double extraction) on the stream:
skip whitespace, optional sign, integer digits, optional fraction,
optional exponent; the result is the exact value of the literal.  `none`
models `is.fail()` (no digits at all), which the caller turns into an
assertion failure. -/
def extractNumber (s0 : List Char) : Option (ℚ × List Char) :=
  match parseSign (s0.dropWhile isSpaceChar) with
  | (neg, s1) =>
    match takeDigits 0 0 s1 with
    | (ip, ic, s2) =>
      match parseFrac s2 with
      | (fp, fc, s3) =>
        if ic + fc = 0 then none
        else
          match parseExpTail s3 with
          | (ex, s4) => some (literalValue neg ip fp fc ex, s4)

mutual
/-- `json::parse::read_value`: one character of lookahead dispatches to the
array/string/keyword/number sub-readers; `]` or `}` yields the undefined
sentinel, and a leading `,` is skipped before dispatching. -/
def read_value (fuel : Nat) (s : List Char) : Except ParseErr (value × List Char) :=
  match fuel with
  | 0 => .error .fuel
  | fuel + 1 =>
    match nextChar s with
    | none => .error .fatal
    | some (c0, r0) =>
      if c0 = ']' ∨ c0 = braceR then .ok (.undefined, r0)
      else
        match (if c0 = ',' then nextChar r0 else some (c0, r0)) with
        | none => .error .fatal
        | some (c, r) =>
          if c = '[' then
            read_array_loop fuel .undefined r
          else if c = quoteD ∨ c = quoteS then
            match read_string (r.length + 1) [] r with
            | .error e => .error e
            | .ok (str, rest) => .ok (.string str, rest)
          else if c = 'f' then
            match eat 'a' r with
            | .error e => .error e
            | .ok r1 =>
              match eat 'l' r1 with
              | .error e => .error e
              | .ok r2 =>
                match eat 's' r2 with
                | .error e => .error e
                | .ok r3 =>
                  match eat 'e' r3 with
                  | .error e => .error e
                  | .ok r4 => .ok (.false_, r4)
          else if c = 't' then
            match eat 'r' r with
            | .error e => .error e
            | .ok r1 =>
              match eat 'u' r1 with
              | .error e => .error e
              | .ok r2 =>
                match eat 'e' r2 with
                | .error e => .error e
                | .ok r3 => .ok (.true_, r3)
          else if c = 'n' then
            match eat 'u' r with
            | .error e => .error e
            | .ok r1 =>
              match eat 'l' r1 with
              | .error e => .error e
              | .ok r2 =>
                match eat 'l' r2 with
                | .error e => .error e
                | .ok r3 => .ok (.null, r3)
          else
            match extractNumber (c :: r) with
            | none => .error .fatal
            | some (q, rest) => .ok (.number q, rest)

/-- The `while (json::value a = read_value(is)) v.push_back(a);` loop of
`json::parse::read_array`, with `v` threaded as the accumulator. -/
def read_array_loop (fuel : Nat) (v : value) (s : List Char) :
    Except ParseErr (value × List Char) :=
  match fuel with
  | 0 => .error .fuel
  | fuel + 1 =>
    match read_value fuel s with
    | .error e => .error e
    | .ok (a, r) =>
      if a.toBool then read_array_loop fuel (push_back_array v a) r
      else .ok (v, r)
end

/-- `json::parse::read_key`: a string followed by a mandatory `:`. -/
def read_key (s : List Char) : Except ParseErr (List Char × List Char) :=
  match read_string (s.length + 1) [] s with
  | .error e => .error e
  | .ok (key, r) =>
    match eat ':' r with
    | .error e => .error e
    | .ok r2 => .ok (key, r2)

/-- `json::parse::read_pair`: `}` ends the member list (`none`); otherwise
the next character must be a quote (assertion), and a key/value pair is
read. -/
def read_pair (fuel : Nat) (s : List Char) :
    Except ParseErr (Option (List Char × value) × List Char) :=
  match nextChar s with
  | none => .error .fatal
  | some (c, r) =>
    if c = braceR then .ok (none, r)
    else if c = quoteD ∨ c = quoteS then
      match read_key r with
      | .error e => .error e
      | .ok (key, r1) =>
        match read_value fuel r1 with
        | .error e => .error e
        | .ok (v, r2) => .ok (some (key, v), r2)
    else .error .fatal

/-- `std::string` `operator<`: plain lexicographic comparison by character,
the ordering of the `std::map` behind `json::object`. -/
def stdstring_lt : List Char → List Char → Bool
  | _, [] => false
  | [], _ :: _ => true
  | a :: as, b :: bs =>
    if a.toNat < b.toNat then true
    else if b.toNat < a.toNat then false
    else stdstring_lt as bs

/-- `std::map<std::string, json::value>::insert`: keep the mapping sorted
by key; inserting an already-present key leaves the old entry in place. -/
def object_insert (key : List Char) (v : value) :
    List (List Char × value) → List (List Char × value)
  | [] => [(key, v)]
  | (k, w) :: rest =>
    if stdstring_lt key k then (key, v) :: (k, w) :: rest
    else if stdstring_lt k key then (k, w) :: object_insert key v rest
    else (k, w) :: rest

/-- `json::parse::read_members`: read pairs until `read_pair` reports `}`,
inserting each into the object. -/
def read_members (fuel : Nat) (o : List (List Char × value)) (s : List Char) :
    Except ParseErr (List (List Char × value) × List Char) :=
  match fuel with
  | 0 => .error .fuel
  | fuel + 1 =>
    match read_pair fuel s with
    | .error e => .error e
    | .ok (none, r) => .ok (o, r)
    | .ok (some (k, v), r) => read_members fuel (object_insert k v o) r

/-- `json::parse::read_object`: a mandatory `{`, then the members. -/
def read_object (fuel : Nat) (s : List Char) :
    Except ParseErr (List (List Char × value) × List Char) :=
  match eat braceL s with
  | .error e => .error e
  | .ok r => read_members fuel [] r

/-- `operator>>(std::istream&, json::value&)` on a complete input: run
`read_value` with ample fuel. -/
def parse (s : List Char) : Except ParseErr (value × List Char) :=
  read_value (2 * s.length + 2) s

/-- `operator>>(std::istream&, json::object&)` on a complete input: run
`read_object` with ample fuel. -/
def parse_object (s : List Char) : Except ParseErr (List (List Char × value) × List Char) :=
  read_object (2 * s.length + 2) s

/-! ### Serializer (`operator<<(std::ostream&, const json::value&)`)

The output stream is a `List Char`.  `os << double` (default formatting,
6 significant digits, `%g` shape) is modelled on the exact rational value
through integer arithmetic on numerator and denominator. -/

/-- The ASCII digit for `d < 10`. -/
def digitChar (d : Nat) : Char := Char.ofNat (48 + d)

/-- Decimal digits of `n`, most significant first; fuel-structured so that
it evaluates in the kernel (any `fuel ≥ n` suffices, see the lemmas). -/
def natDigitsAux : Nat → Nat → List Char
  | 0, _ => []
  | f + 1, n => if n = 0 then [] else natDigitsAux f (n / 10) ++ [digitChar (n % 10)]

/-- Decimal rendering of a natural number (`os` integer formatting). -/
def natDigits (n : Nat) : List Char :=
  if n = 0 then ['0'] else natDigitsAux (n + 1) n

/-- Decimal rendering of a signed integer (`os << int32_t` etc.). -/
def intDigits (n : Int) : List Char :=
  if n < 0 then '-' :: natDigits n.natAbs else natDigits n.natAbs

/-- Number of decimal digits of a positive natural. -/
def numLen (n : Nat) : Nat := (natDigits n).length

/-- Does `a / b < 10 ^ e` hold?  (`a, b > 0`, `e` may be negative.) -/
def ltPow10 (a b : Nat) (e : Int) : Bool :=
  if 0 ≤ e then a < b * 10 ^ e.toNat else a * 10 ^ (-e).toNat < b

/-- The decimal exponent of `a / b > 0`: the unique `e` with
`10 ^ e ≤ a / b < 10 ^ (e + 1)`, found from the digit counts with a
one-step correction. -/
def decExp (a b : Nat) : Int :=
  let e0 : Int := (numLen a : Int) - (numLen b : Int)
  if ltPow10 a b e0 then e0 - 1 else e0

/-- `a / b` rounded to an integer after scaling by `10 ^ (5 - e)`:
`⌊a / b * 10 ^ (5 - e) + 1 / 2⌋` computed with integer arithmetic. -/
def round6 (a b : Nat) (e : Int) : Nat :=
  let k : Int := 5 - e
  if 0 ≤ k then (2 * a * 10 ^ k.toNat + b) / (2 * b)
  else (2 * a + b * 10 ^ (-k).toNat) / (2 * b * 10 ^ (-k).toNat)

/-- Remove trailing `0` characters (the `%g` trailing-zero suppression). -/
def stripZerosRight (l : List Char) : List Char :=
  (l.reverse.dropWhile (fun c => c = '0')).reverse

/-- Fixed-point `%g` layout of the 6 mantissa digits `ds` at exponent `e`
(`-4 ≤ e < 6`). -/
def fixedFmt (ds : List Char) (e : Int) : List Char :=
  if 0 ≤ e then
    let ip := ds.take (e.toNat + 1)
    let fp := stripZerosRight (ds.drop (e.toNat + 1))
    if fp.isEmpty then ip else ip ++ '.' :: fp
  else
    '0' :: '.' :: (List.replicate ((-e).toNat - 1) '0' ++ stripZerosRight ds)

/-- Scientific `%g` layout of the 6 mantissa digits at exponent `e`
(two-digit minimum exponent field). -/
def sciFmt (ds : List Char) (e : Int) : List Char :=
  match ds with
  | [] => []
  | d :: tl =>
    let fp := stripZerosRight tl
    (d :: (if fp.isEmpty then [] else '.' :: fp)) ++
      'e' :: (if e < 0 then '-' else '+') ::
        (let xs := natDigits e.natAbs
         if xs.length = 1 then '0' :: xs else xs)

/-- `%g` with precision 6 for the positive rational `a / b`. -/
def fmtG6pos (a b : Nat) : List Char :=
  let e0 := decExp a b
  let m0 := round6 a b e0
  let m := if 10 ^ 6 ≤ m0 then 10 ^ 5 else m0
  let e := if 10 ^ 6 ≤ m0 then e0 + 1 else e0
  let ds := natDigits m
  if -4 ≤ e ∧ e < 6 then fixedFmt ds e else sciFmt ds e

/-- `os << v.data.number`: default `std::ostream` double output (6
significant digits) on the exact rational value. -/
def fmtG6 (q : ℚ) : List Char :=
  if q.num = 0 then ['0']
  else if q.num < 0 then '-' :: fmtG6pos q.num.natAbs q.den
  else fmtG6pos q.num.natAbs q.den

/-- Hex digit for `d < 16`. -/
def hexDigitChar (d : Nat) : Char :=
  if d < 10 then digitChar d else Char.ofNat (87 + d)

/-- Hex digits of `n`, most significant first (fuel-structured). -/
def natHexAux : Nat → Nat → List Char
  | 0, _ => []
  | f + 1, n => if n = 0 then [] else natHexAux f (n / 16) ++ [hexDigitChar (n % 16)]

/-- `os << v.data.object`: printing the raw `json::object*` pointer
(implementation-typical `0x...` hex rendering of the address). -/
def ptrChars (p : Nat) : List Char :=
  '0' :: 'x' :: (if p = 0 then ['0'] else natHexAux (p + 1) p)

mutual
/-- `operator<<(std::ostream&, const json::value&)`: tag dispatch.  A
string is quoted with no escaping, a number uses the default double
output, an Object-tagged value prints its raw mapping pointer in
parentheses, arrays are comma-joined in brackets, the keywords print
themselves, bytes are written raw, and `JSON_UNDEFINED` prints a
placeholder token. -/
def serialize : value → List Char
  | .string s => quoteD :: s ++ [quoteD]
  | .number q => fmtG6 q
  | .object p => '(' :: ptrChars p ++ [')']
  | .array xs => '[' :: serialize_elements xs ++ [']']
  | .true_ => ['t', 'r', 'u', 'e']
  | .false_ => ['f', 'a', 'l', 's', 'e']
  | .null => ['n', 'u', 'l', 'l']
  | .byte bs => bs.map Char.ofNat
  | .int32 n => intDigits n
  | .int64 n => intDigits n
  | .date n => intDigits n
  | .undefined => "*undefined*".toList
termination_by structural v => v

/-- The loop `if (i) os << ','; os << v[i];` of the array case. -/
def serialize_elements : List value → List Char
  | [] => []
  | [x] => serialize x
  | x :: y :: xs => serialize x ++ ',' :: serialize_elements (y :: xs)
termination_by structural xs => xs
end

/-- One `"key":value` member of `operator<<(std::ostream&, const
json::object&)`. -/
def serialize_member (kv : List Char × value) : List Char :=
  quoteD :: kv.1 ++ quoteD :: ':' :: serialize kv.2

/-- The comma-joined member list of the object writer. -/
def serialize_members : List (List Char × value) → List Char
  | [] => []
  | [kv] => serialize_member kv
  | kv :: kv2 :: rest => serialize_member kv ++ ',' :: serialize_members (kv2 :: rest)

/-- `operator<<(std::ostream&, const json::object&)`. -/
def serialize_object (o : List (List Char × value)) : List Char :=
  braceL :: serialize_members o ++ [braceR]

/-- The input text of the two-member object scenario:
`{"a":1,"b":[true,false]}`. -/
def objInput : List Char :=
  braceL :: quoteD :: 'a' :: quoteD :: ':' :: '1' :: ',' ::
    quoteD :: 'b' :: quoteD :: ':' :: '[' :: 't' :: 'r' :: 'u' :: 'e' :: ',' ::
      'f' :: 'a' :: 'l' :: 's' :: 'e' :: ']' :: [braceR]

/-- Exactly one of three Booleans is set. -/
def exactlyOne (x y z : Bool) : Bool :=
  (x && !y && !z) || (!x && y && !z) || (!x && !y && z)

mutual
/-- Values on which the §4.2 relations behave like a total order: no
`JSON_NULL` or `JSON_UNDEFINED` node anywhere (those compare unequal even
to themselves). -/
def comparable : value → Bool
  | .null => false
  | .undefined => false
  | .array xs => comparableL xs
  | _ => true
termination_by structural v => v

/-- All elements comparable. -/
def comparableL : List value → Bool
  | [] => true
  | x :: xs => comparable x && comparableL xs
termination_by structural xs => xs
end

/-- Folding digits into a value, as `takeDigits` does. -/
def digitsVal (acc : Nat) (ds : List Char) : Nat :=
  ds.foldl (fun a c => a * 10 + (c.toNat - 48)) acc

/-- Stream suffixes behind which a serialized element may stand inside an
array or at top level: nothing, or a separator/terminator. -/
def safeTail : List Char → Bool
  | [] => true
  | c :: _ => c = ',' || c = ']'

/-- Characters that survive the quoting-free, whitespace-skipping string
round trip: not a quote of either kind, not whitespace, not NUL. -/
def goodChar (c : Char) : Bool :=
  !(c = quoteD || c = quoteS || isSpaceChar c || c.toNat = 0)

mutual
/-- The round-trippable values: strings of plain characters, numbers that
are integers of magnitude below 10^6, booleans, and non-empty arrays of
such values. -/
def good : value → Bool
  | .string s => s.all goodChar
  | .number q => q.den == 1 && decide (q.num.natAbs < 1000000)
  | .true_ => true
  | .false_ => true
  | .array es => !es.isEmpty && goodL es
  | _ => false
termination_by structural v => v

/-- All elements round-trippable. -/
def goodL : List value → Bool
  | [] => true
  | x :: xs => good x && goodL xs
termination_by structural xs => xs
end

mutual
/-- Fuel bound for parsing a serialized value. -/
def ts : value → Nat
  | .array xs => 1 + tsL xs
  | _ => 1
termination_by structural v => v

/-- Fuel bound for the array-reading loop over serialized elements. -/
def tsL : List value → Nat
  | [] => 2
  | x :: xs => 1 + ts x + tsL xs
termination_by structural xs => xs
end

/-- Folding `push_back` over a list of elements, as the array-reading loop
does. -/
def pushAll (v : value) (es : List value) : value :=
  es.foldl push_back_array v

/-- The comma-led serialization of the trailing elements of an array,
as the serializer emits them after the first element. -/
def commaSep : List value → List Char
  | [] => []
  | e :: tl => ',' :: serialize e ++ commaSep tl

/-! ### Proof development -/

/-! ### Helper lemmas about the comparison relations -/

theorem char_eq_of_toNat_eq {a b : Char} (h : a.toNat = b.toNat) : a = b :=
  Char.eq_of_val_eq (UInt32.toNat.inj h)

theorem strcmp_self (s : List Char) : strcmp s s = 0 := by
  induction s with
  | nil => rfl
  | cons c cs ih => simp [strcmp, ih]

theorem strcmp_eq_zero_iff (s : List Char) : ∀ t, strcmp s t = 0 ↔ s = t := by
  induction s with
  | nil => intro t; cases t <;> simp [strcmp]
  | cons c cs ih =>
    intro t
    cases t with
    | nil => simp [strcmp]
    | cons d ds =>
      simp only [strcmp]
      rcases Nat.lt_trichotomy c.toNat d.toNat with h | h | h
      · simp only [h, if_true]
        constructor
        · intro he; exact absurd he (by decide)
        · intro he
          injection he with h1 h2
          subst h1
          omega
      · have hcd : c = d := char_eq_of_toNat_eq h
        subst hcd
        simp [ih]
      · have h1 : ¬ c.toNat < d.toNat := by omega
        simp only [h1, if_false, h, if_true]
        constructor
        · intro he; exact absurd he (by decide)
        · intro he
          injection he with h2 h3
          subst h2
          omega

theorem strcmp_swap (s : List Char) : ∀ t, strcmp t s = -strcmp s t := by
  induction s with
  | nil => intro t; cases t <;> simp [strcmp]
  | cons c cs ih =>
    intro t
    cases t with
    | nil => simp [strcmp]
    | cons d ds =>
      simp only [strcmp]
      rcases Nat.lt_trichotomy c.toNat d.toNat with h | h | h
      · have h1 : ¬ d.toNat < c.toNat := by omega
        simp [h, h1]
      · have h1 : ¬ c.toNat < d.toNat := by omega
        have h2 : ¬ d.toNat < c.toNat := by omega
        simp [h1, h2, ih]
      · have h1 : ¬ c.toNat < d.toNat := by omega
        simp [h, h1]

theorem strcmp_trichotomy (s t : List Char) :
    strcmp s t = -1 ∨ strcmp s t = 0 ∨ strcmp s t = 1 := by
  induction s generalizing t with
  | nil => cases t <;> simp [strcmp]
  | cons c cs ih =>
    cases t with
    | nil => simp [strcmp]
    | cons d ds =>
      simp only [strcmp]
      rcases Nat.lt_trichotomy c.toNat d.toNat with h | h | h
      · simp [h]
      · have h1 : ¬ c.toNat < d.toNat := by omega
        have h2 : ¬ d.toNat < c.toNat := by omega
        simp [h1, h2, ih]
      · have h1 : ¬ c.toNat < d.toNat := by omega
        simp [h, h1]

/-- Claim C7: for every Value `n` with tag Null, the equality comparison
`n == n` evaluates to false; Null is never equal to Null. -/
theorem null_eq_null_false (n : value) (h : n.type = .JSON_NULL) :
    eq_element n n = false := by
  cases n <;> first
    | rfl
    | simp [value.type] at h

theorem null_eq_null_false_w :
    value.null.type = .JSON_NULL ∧ eq_element .null .null = false :=
  ⟨rfl, null_eq_null_false .null rfl⟩

/-- Claim C4: for every pair of values `a`, `b` with different tags,
`a == b` is false, and `a < b` holds exactly when the tag ordinal of `a`
is lower than the tag ordinal of `b` (lower ordinal sorts first in the
declared enum order String, Number, Object, Array, True, False, Null,
Byte, Int32, Int64, Date, Undefined). -/
theorem diff_tags (a b : value) (h : a.type ≠ b.type) :
    eq_element a b = false ∧ (lt_element a b = true ↔ a.type.toNat < b.type.toNat) := by
  cases a <;> cases b <;>
    first
      | exact absurd rfl h
      | (refine ⟨rfl, ?_⟩
         simp [lt_element, value.type, json_element_type.toNat])

theorem diff_tags_w :
    (value.null.type ≠ (value.string ['a']).type) ∧
      (eq_element .null (.string ['a']) = false ∧
        (lt_element .null (.string ['a']) = true ↔
          value.null.type.toNat < (value.string ['a']).type.toNat)) :=
  ⟨by decide, diff_tags _ _ (by decide)⟩

/-- Claim C5: appending an element `e` to a Value `v` whose tag is neither
Array nor Undefined yields an Array-tagged Value of length 2 whose element
at index 0 is the original `v` and whose element at index 1 is `e`. -/
theorem scalar_coercion (v e : value)
    (h1 : v.type ≠ .JSON_ARRAY) (h2 : v.type ≠ .JSON_UNDEFINED) :
    (push_back_array v e).type = .JSON_ARRAY ∧
      (push_back_array v e).size = 2 ∧
      (push_back_array v e).index 0 = v ∧
      (push_back_array v e).index 1 = e := by
  have hpb : push_back_array v e = .array [v, e] := by
    unfold push_back_array
    rw [if_neg h2, if_pos h1]
  rw [hpb]
  simp [value.size, value.index, value.elements, value.type]

theorem scalar_coercion_w :
    ((value.number 5).type ≠ .JSON_ARRAY) ∧ ((value.number 5).type ≠ .JSON_UNDEFINED) ∧
      ((push_back_array (.number 5) .true_).type = .JSON_ARRAY ∧
        (push_back_array (.number 5) .true_).size = 2 ∧
        (push_back_array (.number 5) .true_).index 0 = .number 5 ∧
        (push_back_array (.number 5) .true_).index 1 = .true_) :=
  ⟨by decide, by decide, scalar_coercion _ _ (by decide) (by decide)⟩

/-- C10 helper. -/
theorem construct_array_eq_replicate (n : Nat) :
    construct_array n = List.replicate n .undefined := by
  induction n with
  | zero => rfl
  | succ n ih => simp [construct_array, ih, List.replicate_succ]

/-- Claim C10: for every non-negative integer `n`, constructing a Value from
the integer `n` yields an Array-tagged Value whose length is `n` and whose
every element has tag Undefined. -/
theorem value_of_int_spec (n : Nat) :
    (value_of_int n).type = .JSON_ARRAY ∧
      (value_of_int n).size = n ∧
      (value_of_int n).elements = List.replicate n .undefined := by
  refine ⟨rfl, ?_, ?_⟩ <;>
    simp [value_of_int, value.size, value.elements, construct_array_eq_replicate]

/-- Claim C9: parsing the malformed input text `tru` (a truncated `true`
keyword) triggers a fatal, assertion-style parse failure; no partial or
garbage Value is returned. -/
theorem parse_tru_fatal : parse ("tru".toList) = .error .fatal := rfl

/-- Claim C2 (evaluation at the failing input): the object reader aborts
with an assertion failure on the comma after the first pair, instead of
producing the two-key object the claim (and the spec grammar) describe. -/
theorem parse_two_member_object_fatal : parse_object objInput = .error .fatal := rfl

/-- Supporting evidence for the C2 divergence: the one-member front of the
same input does parse. -/
theorem parse_one_member_object :
    parse_object (braceL :: quoteD :: 'a' :: quoteD :: ':' :: '1' :: [braceR]) =
      .ok ([(['a'], .number 1)], []) := rfl

/-- Claim C6 (amended): after appending one element or an array of elements
to an Array-tagged Value, the resulting length equals the prior length plus
the number of appended elements, and every previously existing element
remains the identical value at its original index (§4.2 equality of the
old and new occupant additionally holds exactly when that element contains
no Null/Undefined node, §4.2 being irreflexive there). -/
theorem append_monotone (xs : List value) (e : value) (es : List value) :
    push_back_array (.array xs) e = .array (xs ++ [e]) ∧
      (push_back_array (.array xs) e).size = (value.array xs).size + 1 ∧
      (push_back_array (.array xs) e).elements.take xs.length = xs ∧
      push_back_array_arr (.array xs) es = .array (xs ++ es) ∧
      (push_back_array_arr (.array xs) es).size = (value.array xs).size + es.length ∧
      (push_back_array_arr (.array xs) es).elements.take xs.length = xs := by
  refine ⟨rfl, ?_, ?_, rfl, ?_, ?_⟩ <;>
    simp [push_back_array, push_back_array_arr, value.size, value.elements,
      value.type, List.take_left]

/-- Claim C6 counterexample: a pre-existing `JSON_NULL` element is not
§4.2-equal to its (identical) post-append occupant, because Null never
compares equal to Null. -/
theorem append_monotone_cex :
    (value.array [.null]).type = .JSON_ARRAY ∧
      (push_back_array (.array [.null]) .true_).size = (value.array [.null]).size + 1 ∧
      (push_back_array (.array [.null]) .true_).index 0 = .null ∧
      eq_element ((push_back_array (.array [.null]) .true_).index 0)
        ((value.array [.null]).index 0) = false := by
  refine ⟨rfl, rfl, rfl, ?_⟩
  decide

/-- Claim C3 counterexample: `a = Array [Null]` compared with itself has
equal tags, and its tag is neither Null nor Undefined, yet none of `a<b`,
`b<a`, `a==b` holds. -/
theorem trichotomy_cex :
    (value.array [.null]).type = (value.array [.null]).type ∧
      (value.array [.null]).type ≠ .JSON_NULL ∧
      (value.array [.null]).type ≠ .JSON_UNDEFINED ∧
      lt_element (.array [.null]) (.array [.null]) = false ∧
      eq_element (.array [.null]) (.array [.null]) = false := by
  refine ⟨rfl, by decide, by decide, ?_, by decide⟩
  simp [lt_element, lt_elements]

/-- `strcmp < 0` is exactly lexicographic order on the character lists. -/
theorem strcmp_lt_iff_lex (s : List Char) :
    ∀ t, strcmp s t < 0 ↔ List.Lex (· < ·) s t := by
  induction s with
  | nil =>
    intro t
    cases t with
    | nil => simp [strcmp]
    | cons d ds => simp [strcmp, List.Lex.nil]
  | cons c cs ih =>
    intro t
    cases t with
    | nil =>
      simp only [strcmp]
      constructor
      · intro h; exact absurd h (by decide)
      · intro h; exact absurd h (List.Lex.not_nil_right _ _)
    | cons d ds =>
      simp only [strcmp]
      rcases Nat.lt_trichotomy c.toNat d.toNat with h | h | h
      · simp only [h, if_true]
        constructor
        · intro _; exact List.Lex.rel h
        · intro _; decide
      · have hcd : c = d := char_eq_of_toNat_eq h
        subst hcd
        have h1 : ¬ c.toNat < c.toNat := by omega
        simp only [h1, if_false]
        rw [List.Lex.cons_iff]
        exact ih ds
      · have h1 : ¬ c.toNat < d.toNat := by omega
        simp only [h1, if_false, h, if_true]
        constructor
        · intro hc; exact absurd hc (by decide)
        · intro hl
          cases hl with
          | rel hr =>
            have hr2 : c.toNat < d.toNat := hr
            omega
          | cons hr => omega

/-- Claim C8: two String-tagged values are equal exactly when the strings
have equal length and identical characters at every position, and the
order between them is byte-lexicographic on their contents. -/
theorem string_compare_spec (s t : List Char) :
    (eq_element (.string s) (.string t) = true ↔
      (s.length = t.length ∧ ∀ (i : Nat) (h1 : i < s.length) (h2 : i < t.length),
        s.get ⟨i, h1⟩ = t.get ⟨i, h2⟩)) ∧
    (lt_element (.string s) (.string t) = true ↔ List.Lex (· < ·) s t) := by
  constructor
  · show string_eq s t = true ↔ _
    unfold string_eq
    simp only [Bool.and_eq_true, beq_iff_eq]
    constructor
    · rintro ⟨hl, hc⟩
      have hst := (strcmp_eq_zero_iff s t).mp hc
      subst hst
      exact ⟨rfl, fun i h1 h2 => rfl⟩
    · rintro ⟨hl, hg⟩
      have hst : s = t := List.ext_get hl hg
      subst hst
      exact ⟨rfl, (strcmp_eq_zero_iff s s).mpr rfl⟩
  · have hlt : lt_element (.string s) (.string t) = string_lt s t := by
      simp [lt_element]
    rw [hlt]
    unfold string_lt
    simp only [decide_eq_true_eq]
    exact strcmp_lt_iff_lex s t

theorem string_compare_spec_w :
    (eq_element (.string ['a']) (.string ['a', 'b']) = true ↔
      ((['a'] : List Char).length = (['a', 'b'] : List Char).length ∧
        ∀ (i : Nat) (h1 : i < (['a'] : List Char).length)
          (h2 : i < (['a', 'b'] : List Char).length),
          (['a'] : List Char).get ⟨i, h1⟩ = (['a', 'b'] : List Char).get ⟨i, h2⟩)) ∧
    (lt_element (.string ['a']) (.string ['a', 'b']) = true ↔
      List.Lex (· < ·) ['a'] ['a', 'b']) :=
  string_compare_spec ['a'] ['a', 'b']

theorem string_trichotomy (s t : List Char) :
    exactlyOne (string_lt s t) (string_lt t s) (string_eq s t) = true := by
  unfold string_lt string_eq exactlyOne
  rcases strcmp_trichotomy s t with h | h | h
  · have h2 : strcmp t s = 1 := by rw [strcmp_swap]; omega
    simp [h, h2]
  · have hst := (strcmp_eq_zero_iff s t).mp h
    subst hst
    simp [h, strcmp_self]
  · have h2 : strcmp t s = -1 := by rw [strcmp_swap]; omega
    simp [h, h2]

theorem byte_trichotomy (a : List Nat) :
    ∀ b, exactlyOne (byte_lt a b) (byte_lt b a) (byte_eq a b) = true := by
  induction a with
  | nil =>
    intro b
    cases b <;> simp [byte_lt, byte_eq, exactlyOne]
  | cons x xs ih =>
    intro b
    cases b with
    | nil => simp [byte_lt, byte_eq, exactlyOne]
    | cons y ys =>
      rcases Nat.lt_trichotomy x y with h | h | h
      · have h2 : ¬ y < x := by omega
        simp [byte_lt, byte_eq, exactlyOne, h, h2]
        omega
      · subst h
        have h1 : ¬ x < x := by omega
        simp only [byte_lt, h1, if_false]
        have := ih ys
        unfold exactlyOne at this ⊢
        simpa [byte_eq] using this
      · have h2 : ¬ x < y := by omega
        simp [byte_lt, byte_eq, exactlyOne, h, h2]
        omega

theorem linord_trichotomy {α : Type} [LinearOrder α] [BEq α] [LawfulBEq α] (x y : α) :
    exactlyOne (decide (x < y)) (decide (y < x)) (x == y) = true := by
  rcases lt_trichotomy x y with h | h | h
  · have h1 : ¬ y < x := asymm h
    have h2 : x ≠ y := ne_of_lt h
    simp [exactlyOne, h, h1, h2]
  · subst h
    simp [exactlyOne, lt_irrefl]
  · have h1 : ¬ x < y := asymm h
    have h2 : x ≠ y := ne_of_gt h
    simp [exactlyOne, h, h1, h2]

theorem tag_toNat_inj (t u : json_element_type) (h : t.toNat = u.toNat) : t = u := by
  cases t <;> cases u <;> first | rfl | exact absurd h (by decide)

/-- Shared different-tags lemma: equality is constantly false, and the
order is the comparison of the enum ordinals. -/
theorem diff_tags_lemma (a b : value) (h : a.type ≠ b.type) :
    eq_element a b = false ∧ lt_element a b = decide (a.type.toNat < b.type.toNat) := by
  cases a <;> cases b <;>
    first
      | exact absurd rfl h
      | exact ⟨rfl, by simp [lt_element, value.type, json_element_type.toNat]⟩

mutual
theorem trichotomy_aux (a b : value) (ha : comparable a = true) (hb : comparable b = true) :
    exactlyOne (lt_element a b) (lt_element b a) (eq_element a b) = true := by
  by_cases htag : a.type = b.type
  · cases a <;> cases b <;>
      first
        | exact absurd htag (by decide)
        | (simp only [comparable] at ha; exact absurd ha (by decide))
        | (simp only [comparable] at hb; exact absurd hb (by decide))
        | (simp only [lt_element, eq_element]; apply string_trichotomy)
        | (simp only [lt_element, eq_element]; apply byte_trichotomy)
        | (simp only [lt_element, eq_element]; apply linord_trichotomy)
        | (simp only [lt_element, eq_element]; decide)
        | (simp only [lt_element, eq_element]
           exact trichotomy_auxL _ _ (by simpa [comparable] using ha)
             (by simpa [comparable] using hb))
  · have h1 := diff_tags_lemma a b htag
    have h2 := diff_tags_lemma b a (Ne.symm htag)
    have hne : a.type.toNat ≠ b.type.toNat := fun hh => htag (tag_toNat_inj _ _ hh)
    rw [h1.1, h1.2, h2.2]
    rcases Nat.lt_trichotomy a.type.toNat b.type.toNat with hlt | heq | hgt
    · have hn : ¬ b.type.toNat < a.type.toNat := by omega
      simp [exactlyOne, hlt, hn]
    · exact absurd heq hne
    · have hn : ¬ a.type.toNat < b.type.toNat := by omega
      simp [exactlyOne, hgt, hn]
termination_by sizeOf a + sizeOf b

theorem trichotomy_auxL (xs ys : List value)
    (hx : comparableL xs = true) (hy : comparableL ys = true) :
    exactlyOne (lt_elements xs ys) (lt_elements ys xs)
      (xs.length == ys.length && eq_elements xs ys) = true := by
  match xs, ys with
  | [], [] => simp [lt_elements, eq_elements, exactlyOne]
  | [], y :: ys => simp [lt_elements, eq_elements, exactlyOne]
  | x :: xs, [] => simp [lt_elements, eq_elements, exactlyOne]
  | x :: xs, y :: ys =>
    have hx1 : comparable x = true ∧ comparableL xs = true := by
      simpa [comparableL, Bool.and_eq_true] using hx
    have hy1 : comparable y = true ∧ comparableL ys = true := by
      simpa [comparableL, Bool.and_eq_true] using hy
    have h3 := trichotomy_aux x y hx1.1 hy1.1
    cases hxy : lt_element x y with
    | true =>
      have h4 : lt_element y x = false ∧ eq_element x y = false := by
        simpa [exactlyOne, hxy] using h3
      simp [lt_elements, eq_elements, exactlyOne, hxy, h4.1, h4.2]
    | false =>
      cases hyx : lt_element y x with
      | true =>
        have h4 : eq_element x y = false := by
          simpa [exactlyOne, hxy, hyx] using h3
        simp [lt_elements, eq_elements, exactlyOne, hxy, hyx, h4]
      | false =>
        have heq : eq_element x y = true := by
          simpa [exactlyOne, hxy, hyx] using h3
        have IH := trichotomy_auxL xs ys hx1.2 hy1.2
        have hlen : ((x :: xs).length == (y :: ys).length) = (xs.length == ys.length) := by
          by_cases h : xs.length = ys.length
          · simp [h]
          · simp [List.length_cons, h]
        calc exactlyOne (lt_elements (x :: xs) (y :: ys)) (lt_elements (y :: ys) (x :: xs))
              ((x :: xs).length == (y :: ys).length && eq_elements (x :: xs) (y :: ys))
            = exactlyOne (lt_elements xs ys) (lt_elements ys xs)
              (xs.length == ys.length && eq_elements xs ys) := by
              rw [hlen]
              simp [lt_elements, eq_elements, hxy, hyx, heq]
          _ = true := IH
termination_by sizeOf xs + sizeOf ys
end

/-- Claim C3 (amended): for comparable values (no Null or Undefined node
anywhere, also not inside arrays), if the tags are equal then exactly one
of `a<b`, `b<a`, `a==b` holds, and if the tags differ then equality is
false and the order is decided solely by the tag ordinals. -/
theorem ordering_totality (a b : value)
    (ha : comparable a = true) (hb : comparable b = true) :
    (a.type = b.type →
      exactlyOne (lt_element a b) (lt_element b a) (eq_element a b) = true) ∧
    (a.type ≠ b.type →
      eq_element a b = false ∧ (lt_element a b = true ↔ a.type.toNat < b.type.toNat)) := by
  refine ⟨fun _ => trichotomy_aux a b ha hb, fun h => ?_⟩
  have h1 := diff_tags_lemma a b h
  refine ⟨h1.1, ?_⟩
  rw [h1.2]
  simp

theorem ordering_totality_w :
    comparable (value.number 1) = true ∧ comparable (value.string ['a']) = true ∧
      (((value.number 1).type = (value.string ['a']).type →
        exactlyOne (lt_element (.number 1) (.string ['a']))
          (lt_element (.string ['a']) (.number 1))
          (eq_element (.number 1) (.string ['a'])) = true) ∧
       ((value.number 1).type ≠ (value.string ['a']).type →
        eq_element (.number 1) (.string ['a']) = false ∧
          (lt_element (.number 1) (.string ['a']) = true ↔
            (value.number 1).type.toNat < (value.string ['a']).type.toNat))) :=
  ⟨by decide, by decide, ordering_totality _ _ (by decide) (by decide)⟩

/-! ### Decimal-digit infrastructure for the round-trip proof -/

theorem natDigitsAux_zero : ∀ f, natDigitsAux f 0 = [] := by
  intro f; cases f <;> simp [natDigitsAux]

theorem natDigitsAux_congr (n : Nat) :
    ∀ f g, n < f → n < g → natDigitsAux f n = natDigitsAux g n := by
  induction n using Nat.strong_induction_on with
  | _ n ih =>
    intro f g hf hg
    match f, g with
    | f + 1, g + 1 =>
      by_cases h0 : n = 0
      · simp [natDigitsAux, h0]
      · simp only [natDigitsAux, h0, if_false]
        have hn : n / 10 < n := Nat.div_lt_self (Nat.pos_of_ne_zero h0) (by omega)
        rw [ih (n / 10) hn f g (by omega) (by omega)]

theorem natDigits_lt10 (n : Nat) (h1 : 0 < n) (h2 : n < 10) :
    natDigits n = [digitChar n] := by
  unfold natDigits
  rw [if_neg (by omega)]
  have hd : n / 10 = 0 := by omega
  have hm : n % 10 = n := by omega
  match n, h1 with
  | n + 1, _ =>
    simp only [natDigitsAux, Nat.succ_ne_zero, if_false, hd, natDigitsAux_zero, hm]
    simp

theorem natDigits_ge10 (n : Nat) (h : 10 ≤ n) :
    natDigits n = natDigits (n / 10) ++ [digitChar (n % 10)] := by
  have hd : 0 < n / 10 := Nat.div_pos h (by omega)
  unfold natDigits
  rw [if_neg (by omega), if_neg (by omega)]
  match n, h with
  | n + 1, _ =>
    simp only [natDigitsAux, Nat.succ_ne_zero, if_false]
    have d1 : (n + 1) / 10 < n + 1 := Nat.div_lt_self (by omega) (by omega)
    have d2 : (n + 1) / 10 / 10 < (n + 1) / 10 := Nat.div_lt_self hd (by omega)
    rw [if_neg (by omega), if_neg (by omega),
      natDigitsAux_congr ((n + 1) / 10 / 10) n ((n + 1) / 10) (by omega) (by omega)]

theorem natDigits_ne_nil (n : Nat) : natDigits n ≠ [] := by
  by_cases h0 : n = 0
  · subst h0; decide
  · by_cases h10 : n < 10
    · rw [natDigits_lt10 n (by omega) h10]; simp
    · rw [natDigits_ge10 n (by omega)]; simp

theorem numLen_pos (n : Nat) : 1 ≤ numLen n := by
  unfold numLen
  have := natDigits_ne_nil n
  cases h : natDigits n with
  | nil => exact absurd h this
  | cons c cs => simp

theorem numLen_lt10 (n : Nat) (h1 : 0 < n) (h2 : n < 10) : numLen n = 1 := by
  unfold numLen; rw [natDigits_lt10 n h1 h2]; rfl

theorem numLen_ge10 (n : Nat) (h : 10 ≤ n) : numLen n = numLen (n / 10) + 1 := by
  unfold numLen; rw [natDigits_ge10 n h]; simp

theorem numLen_bounds (n : Nat) (h : 0 < n) :
    10 ^ (numLen n - 1) ≤ n ∧ n < 10 ^ numLen n := by
  induction n using Nat.strong_induction_on with
  | _ n ih =>
    by_cases h10 : n < 10
    · rw [numLen_lt10 n h h10]
      refine ⟨by simpa using h, by simpa using h10⟩
    · have hge : 10 ≤ n := by omega
      have hd : 0 < n / 10 := Nat.div_pos hge (by omega)
      have hlt : n / 10 < n := Nat.div_lt_self (by omega) (by omega)
      obtain ⟨ih1, ih2⟩ := ih (n / 10) hlt hd
      have hL := numLen_pos (n / 10)
      rw [numLen_ge10 n hge]
      constructor
      · have h1 : 10 ^ (numLen (n / 10) + 1 - 1) = 10 * 10 ^ (numLen (n / 10) - 1) := by
          rw [Nat.add_sub_cancel]
          calc 10 ^ numLen (n / 10) = 10 ^ (numLen (n / 10) - 1 + 1) := by
                congr 1; omega
            _ = 10 * 10 ^ (numLen (n / 10) - 1) := by rw [pow_succ]; ring
        rw [h1]
        calc 10 * 10 ^ (numLen (n / 10) - 1) ≤ 10 * (n / 10) := by
              exact Nat.mul_le_mul_left 10 ih1
          _ ≤ n := Nat.mul_div_le n 10
      · have h2 : 10 ^ (numLen (n / 10) + 1) = 10 * 10 ^ numLen (n / 10) := by
          rw [pow_succ]; ring
        rw [h2]
        have h3 : n < 10 * (n / 10) + 10 := by
          have := Nat.mod_lt n (show 0 < 10 by omega)
          have := Nat.div_add_mod n 10
          omega
        have h4 : n / 10 + 1 ≤ 10 ^ numLen (n / 10) := by omega
        calc n < 10 * (n / 10 + 1) := by omega
          _ ≤ 10 * 10 ^ numLen (n / 10) := Nat.mul_le_mul_left 10 h4

theorem digitChar_facts (d : Nat) (h : d < 10) :
    (digitChar d).toNat = 48 + d ∧ isDigitChar (digitChar d) = true ∧
      isSpaceChar (digitChar d) = false := by
  interval_cases d <;> refine ⟨rfl, by decide, by decide⟩

theorem natDigits_all_digits (n : Nat) : (natDigits n).all isDigitChar = true := by
  induction n using Nat.strong_induction_on with
  | _ n ih =>
    by_cases h0 : n = 0
    · subst h0; decide
    · by_cases h10 : n < 10
      · rw [natDigits_lt10 n (by omega) h10]
        simpa using (digitChar_facts n h10).2.1
      · rw [natDigits_ge10 n (by omega)]
        have hlt : n / 10 < n := Nat.div_lt_self (by omega) (by omega)
        have hmod : n % 10 < 10 := Nat.mod_lt n (by omega)
        simp [List.all_append, ih (n / 10) hlt, (digitChar_facts (n % 10) hmod).2.1]

theorem takeDigits_append (ds : List Char) :
    ∀ r acc cnt, ds.all isDigitChar = true →
      (∀ c t, r = c :: t → isDigitChar c = false) →
      takeDigits acc cnt (ds ++ r) = (digitsVal acc ds, cnt + ds.length, r) := by
  induction ds with
  | nil =>
    intro r acc cnt _ hr
    cases r with
    | nil => simp [takeDigits, digitsVal]
    | cons c t => simp [takeDigits, hr c t rfl, digitsVal]
  | cons c ds ih =>
    intro r acc cnt hall hr
    rw [List.all_cons, Bool.and_eq_true] at hall
    have hc : isDigitChar c = true := hall.1
    have hds : ds.all isDigitChar = true := hall.2
    rw [show (c :: ds) ++ r = c :: (ds ++ r) from rfl]
    rw [show takeDigits acc cnt (c :: (ds ++ r)) =
      (if isDigitChar c then takeDigits (acc * 10 + (c.toNat - 48)) (cnt + 1) (ds ++ r)
       else (acc, cnt, c :: (ds ++ r))) from rfl]
    rw [hc, if_pos rfl, ih (r) _ _ hds hr]
    simp [digitsVal, List.foldl_cons]
    omega

theorem digitsVal_natDigits (n : Nat) :
    ∀ acc, digitsVal acc (natDigits n) = acc * 10 ^ numLen n + n := by
  induction n using Nat.strong_induction_on with
  | _ n ih =>
    intro acc
    by_cases h0 : n = 0
    · subst h0
      simp [digitsVal, natDigits, numLen]
    · by_cases h10 : n < 10
      · rw [natDigits_lt10 n (by omega) h10, numLen_lt10 n (by omega) h10]
        have := (digitChar_facts n h10).1
        simp [digitsVal, List.foldl_cons]
        omega
      · have hlt : n / 10 < n := Nat.div_lt_self (by omega) (by omega)
        have hmod : n % 10 < 10 := Nat.mod_lt n (by omega)
        rw [natDigits_ge10 n (by omega), numLen_ge10 n (by omega)]
        unfold digitsVal
        rw [List.foldl_append]
        have h1 := ih (n / 10) hlt acc
        unfold digitsVal at h1
        rw [h1]
        simp only [List.foldl_cons, List.foldl_nil]
        have h2 := (digitChar_facts (n % 10) hmod).1
        rw [h2]
        have h3 : 10 ^ (numLen (n / 10) + 1) = 10 ^ numLen (n / 10) * 10 := pow_succ 10 _
        have h4 : n = n / 10 * 10 + n % 10 := by omega
        rw [h3]
        have h5 : 48 + n % 10 - 48 = n % 10 := by omega
        rw [h5]
        have h6 : (acc * 10 ^ numLen (n / 10) + n / 10) * 10 + n % 10
            = acc * (10 ^ numLen (n / 10) * 10) + (n / 10 * 10 + n % 10) := by ring
        rw [h6, ← h4]

theorem natDigits_mul_pow10 (n : Nat) (h : 0 < n) :
    ∀ k, natDigits (n * 10 ^ k) = natDigits n ++ List.replicate k '0' := by
  intro k
  induction k with
  | zero => simp
  | succ k ih =>
    have hnk : 0 < n * 10 ^ k := by positivity
    have h1 : n * 10 ^ (k + 1) = n * 10 ^ k * 10 := by ring
    rw [h1, natDigits_ge10 _ (by omega), Nat.mul_div_cancel _ (by omega : (0:Nat) < 10),
      Nat.mul_mod_left, ih]
    have h2 : digitChar 0 = '0' := rfl
    rw [h2, List.append_assoc]
    congr 1
    exact (List.replicate_succ' k '0').symm

theorem stripZeros_append_zeros (l : List Char) (k : Nat) :
    stripZerosRight (l ++ List.replicate k '0') = stripZerosRight l := by
  unfold stripZerosRight
  rw [List.reverse_append, List.reverse_replicate]
  congr 1
  induction k with
  | zero => simp
  | succ k ih =>
    rw [List.replicate_succ]
    simp [List.dropWhile_cons, ih]

theorem stripZeros_replicate (k : Nat) :
    stripZerosRight (List.replicate k '0') = [] := by
  simpa using stripZeros_append_zeros [] k

theorem fmtG6pos_int (n : Nat) (h1 : 0 < n) (h2 : n < 1000000) :
    fmtG6pos n 1 = natDigits n := by
  have hL1 : numLen 1 = 1 := rfl
  have hb := numLen_bounds n h1
  have hLpos := numLen_pos n
  have hL6 : numLen n ≤ 6 := by
    by_contra hc
    push_neg at hc
    have h7 : (10:Nat) ^ 6 ≤ 10 ^ (numLen n - 1) := Nat.pow_le_pow_right (by omega) (by omega)
    have h8 : (10:Nat) ^ 6 = 1000000 := by norm_num
    omega
  have hltp : ltPow10 n 1 ((numLen n : Int) - 1) = false := by
    unfold ltPow10
    rw [if_pos (by omega)]
    have htn : ((numLen n : Int) - 1).toNat = numLen n - 1 := by omega
    rw [htn, one_mul]
    exact decide_eq_false (Nat.not_lt.mpr hb.1)
  have hdec : decExp n 1 = (numLen n : Int) - 1 := by
    unfold decExp
    rw [hL1]
    simp [hltp]
  have hr6 : round6 n 1 ((numLen n : Int) - 1) = n * 10 ^ (6 - numLen n) := by
    unfold round6
    rw [if_pos (by omega)]
    have htn : ((5:Int) - ((numLen n : Int) - 1)).toNat = 6 - numLen n := by omega
    rw [htn]
    have hx : 2 * n * 10 ^ (6 - numLen n) = 2 * (n * 10 ^ (6 - numLen n)) := by ring
    rw [hx]
    omega
  have hm6 : n * 10 ^ (6 - numLen n) < 10 ^ 6 := by
    calc n * 10 ^ (6 - numLen n) < 10 ^ numLen n * 10 ^ (6 - numLen n) :=
          Nat.mul_lt_mul_of_lt_of_le hb.2 (Nat.le_refl _) (by positivity)
      _ = 10 ^ 6 := by rw [← pow_add]; congr 1; omega
  have hds : natDigits (n * 10 ^ (6 - numLen n)) =
      natDigits n ++ List.replicate (6 - numLen n) '0' := natDigits_mul_pow10 n h1 _
  unfold fmtG6pos
  rw [hdec]
  simp only [hr6]
  have hng : ¬ ((10:Nat) ^ 6 ≤ n * 10 ^ (6 - numLen n)) := by omega
  rw [if_neg hng, if_neg hng]
  rw [if_pos (⟨by omega, by omega⟩ :
    ((-4:Int) ≤ (numLen n : Int) - 1 ∧ (numLen n : Int) - 1 < 6))]
  rw [hds]
  unfold fixedFmt
  rw [if_pos (by omega : (0:Int) ≤ (numLen n : Int) - 1)]
  have htn2 : ((numLen n : Int) - 1).toNat + 1 = (natDigits n).length := by
    have hl : (natDigits n).length = numLen n := rfl
    omega
  rw [htn2]
  simp only [List.take_left, List.drop_left, stripZeros_replicate]
  simp

/-! ### Stream and number-extraction lemmas -/

theorem nextChar_cons (c : Char) (s : List Char) (h : isSpaceChar c = false) :
    nextChar (c :: s) = some (c, s) := by
  simp [nextChar, List.dropWhile_cons, h]

theorem eat_ok (c : Char) (s : List Char) (h : isSpaceChar c = false) :
    eat c (c :: s) = .ok s := by
  simp [eat, nextChar_cons c s h]

theorem natDigits_head (n : Nat) :
    ∃ d ds, natDigits n = d :: ds ∧ isDigitChar d = true := by
  have hnn := natDigits_ne_nil n
  have hall := natDigits_all_digits n
  cases h : natDigits n with
  | nil => exact absurd h hnn
  | cons d ds =>
    rw [h, List.all_cons, Bool.and_eq_true] at hall
    exact ⟨d, ds, rfl, hall.1⟩

theorem isDigitChar_bounds (c : Char) (h : isDigitChar c = true) :
    48 ≤ c.toNat ∧ c.toNat ≤ 57 := by
  unfold isDigitChar at h
  rw [Bool.and_eq_true] at h
  exact ⟨by simpa using h.1, by simpa using h.2⟩

theorem safeTail_head (r : List Char) (h : safeTail r = true) :
    ∀ c t, r = c :: t → c = ',' ∨ c = ']' := by
  intro c t hr
  subst hr
  unfold safeTail at h
  rw [Bool.or_eq_true] at h
  rcases h with h | h
  · exact Or.inl (by simpa using h)
  · exact Or.inr (by simpa using h)

theorem safeTail_not_digit (r : List Char) (h : safeTail r = true) :
    ∀ c t, r = c :: t → isDigitChar c = false := by
  intro c t hr
  rcases safeTail_head r h c t hr with h1 | h1 <;> subst h1 <;> decide

theorem extractNumber_nat (n : Nat) (rest : List Char) (hsafe : safeTail rest = true) :
    extractNumber (natDigits n ++ rest) = some ((n : ℚ), rest) := by
  obtain ⟨d, ds, hcons, hd⟩ := natDigits_head n
  have hb := isDigitChar_bounds d hd
  have hdsp : isSpaceChar d = false := by
    simp [isSpaceChar]
    omega
  have hdrop : (natDigits n ++ rest).dropWhile isSpaceChar = natDigits n ++ rest := by
    rw [hcons]
    simp [List.dropWhile_cons, hdsp]
  have hsign : parseSign (natDigits n ++ rest) = (false, natDigits n ++ rest) := by
    rw [hcons]
    have h1 : d ≠ '-' := fun he => by subst he; simp at hb
    have h2 : d ≠ '+' := fun he => by subst he; simp at hb
    simp [parseSign, h1, h2]
  have htd := takeDigits_append (natDigits n) rest 0 0 (natDigits_all_digits n)
    (safeTail_not_digit rest hsafe)
  have hfrac : parseFrac rest = (0, 0, rest) := by
    cases hr : rest with
    | nil => rfl
    | cons c t =>
      rcases safeTail_head rest hsafe c t hr with h1 | h1 <;> subst h1 <;> rfl
  have hexp : parseExpTail rest = (0, rest) := by
    cases hr : rest with
    | nil => rfl
    | cons c t =>
      rcases safeTail_head rest hsafe c t hr with h1 | h1 <;> subst h1 <;> rfl
  have hlen1 : 1 ≤ (natDigits n).length := by
    rw [hcons]; simp
  unfold extractNumber
  rw [hdrop, hsign]
  simp only [htd, hfrac, hexp]
  rw [if_neg (by omega)]
  have hval : digitsVal 0 (natDigits n) = n := by
    have := digitsVal_natDigits n 0
    simpa using this
  rw [hval]
  have hlit : literalValue false n 0 0 0 = (n : ℚ) := by
    unfold literalValue
    norm_num
  rw [hlit]

theorem extractNumber_neg_nat (n : Nat) (rest : List Char) (hsafe : safeTail rest = true) :
    extractNumber ('-' :: (natDigits n ++ rest)) = some (-(n : ℚ), rest) := by
  obtain ⟨d, ds, hcons, hd⟩ := natDigits_head n
  have hdrop : ('-' :: (natDigits n ++ rest)).dropWhile isSpaceChar
      = '-' :: (natDigits n ++ rest) := by
    have hm : isSpaceChar '-' = false := by decide
    simp [List.dropWhile_cons, hm]
  have hsign : parseSign ('-' :: (natDigits n ++ rest)) = (true, natDigits n ++ rest) := by
    simp [parseSign]
  have htd := takeDigits_append (natDigits n) rest 0 0 (natDigits_all_digits n)
    (safeTail_not_digit rest hsafe)
  have hfrac : parseFrac rest = (0, 0, rest) := by
    cases hr : rest with
    | nil => rfl
    | cons c t =>
      rcases safeTail_head rest hsafe c t hr with h1 | h1 <;> subst h1 <;> rfl
  have hexp : parseExpTail rest = (0, rest) := by
    cases hr : rest with
    | nil => rfl
    | cons c t =>
      rcases safeTail_head rest hsafe c t hr with h1 | h1 <;> subst h1 <;> rfl
  have hlen1 : 1 ≤ (natDigits n).length := by
    rw [hcons]; simp
  unfold extractNumber
  rw [hdrop, hsign]
  simp only [htd, hfrac, hexp]
  rw [if_neg (by omega)]
  have hval : digitsVal 0 (natDigits n) = n := by
    have := digitsVal_natDigits n 0
    simpa using this
  rw [hval]
  have hlit : literalValue true n 0 0 0 = -(n : ℚ) := by
    unfold literalValue
    norm_num
  rw [hlit]

theorem goodChar_spec (c : Char) (h : goodChar c = true) :
    c ≠ quoteD ∧ c ≠ quoteS ∧ isSpaceChar c = false ∧ c.toNat ≠ 0 := by
  unfold goodChar at h
  simp only [Bool.not_eq_eq_eq_not, Bool.not_true, Bool.or_eq_false_iff] at h
  obtain ⟨⟨⟨h1, h2⟩, h3⟩, h4⟩ := h
  refine ⟨by simpa using h1, by simpa using h2, h3, by simpa using h4⟩

theorem read_string_append (content : List Char) :
    ∀ acc rest fuel, content.all goodChar = true → content.length < fuel →
      read_string fuel acc (content ++ quoteD :: rest) = .ok (acc ++ content, rest) := by
  induction content with
  | nil =>
    intro acc rest fuel _ hf
    match fuel, hf with
    | f + 1, _ =>
      rw [show ([] : List Char) ++ quoteD :: rest = quoteD :: rest from rfl]
      simp [read_string, nextChar_cons quoteD rest (by decide)]
  | cons c cs ih =>
    intro acc rest fuel hall hf
    rw [List.all_cons, Bool.and_eq_true] at hall
    obtain ⟨hq1, hq2, hq3, _⟩ := goodChar_spec c hall.1
    match fuel, hf with
    | f + 1, hf2 =>
      rw [show (c :: cs) ++ quoteD :: rest = c :: (cs ++ quoteD :: rest) from rfl]
      simp only [read_string, nextChar_cons c _ hq3]
      rw [if_neg (by simp [hq1, hq2])]
      rw [ih (acc ++ [c]) rest f hall.2 (by simp only [List.length_cons] at hf2; omega)]
      simp

theorem read_value_true_lit (fuel : Nat) (rest : List Char) :
    read_value (fuel + 1) ('t' :: 'r' :: 'u' :: 'e' :: rest) = .ok (.true_, rest) := rfl

theorem read_value_false_lit (fuel : Nat) (rest : List Char) :
    read_value (fuel + 1) ('f' :: 'a' :: 'l' :: 's' :: 'e' :: rest) = .ok (.false_, rest) := rfl

theorem read_value_other (c : Char) (r : List Char) (fuel : Nat)
    (hsp : isSpaceChar c = false)
    (h1 : (c = ']' ∨ c = braceR) = False) (h3 : (c = ',') = False)
    (h4 : (c = '[') = False) (h5 : (c = quoteD ∨ c = quoteS) = False)
    (h7 : (c = 'f') = False) (h8 : (c = 't') = False) (h9 : (c = 'n') = False) :
    read_value (fuel + 1) (c :: r) =
      (match extractNumber (c :: r) with
       | none => .error .fatal
       | some (q, rest) => .ok (.number q, rest)) := by
  simp [read_value, nextChar_cons c r hsp, h1, h3, h4, h5, h7, h8, h9]

theorem read_value_string_open (s : List Char) (rest : List Char) (fuel : Nat)
    (hall : s.all goodChar = true) :
    read_value (fuel + 1) (quoteD :: (s ++ quoteD :: rest)) = .ok (.string s, rest) := by
  have hq : isSpaceChar quoteD = false := by decide
  have hrs := read_string_append s [] rest ((s ++ quoteD :: rest).length + 1) hall
    (by simp only [List.length_append, List.length_cons]; omega)
  simp only [List.length_append, List.length_cons, List.nil_append] at hrs
  simp [read_value, nextChar_cons quoteD _ hq, hrs,
    eq_false (by decide : ¬ (quoteD = ']' ∨ quoteD = braceR)),
    eq_false (by decide : ¬ (quoteD = ',')),
    eq_false (by decide : ¬ (quoteD = '[')),
    eq_true (Or.inl rfl : quoteD = quoteD ∨ quoteD = quoteS)]

theorem read_value_comma (fuel : Nat) (s : List Char) (c : Char) (r : List Char)
    (hnc : nextChar s = some (c, r))
    (n1 : c ≠ ',') (n2 : c ≠ ']') (n3 : c ≠ braceR) :
    read_value (fuel + 1) (',' :: s) = read_value (fuel + 1) s := by
  have hc : isSpaceChar ',' = false := by decide
  have e1 : ((',' : Char) = ']' ∨ (',' : Char) = braceR) = False :=
    eq_false (by decide)
  have e2 : ((',' : Char) = ',') = True := eq_true rfl
  have e3 : (c = ']' ∨ c = braceR) = False := eq_false (by simp [n2, n3])
  have e4 : (c = ',') = False := eq_false n1
  simp only [read_value, nextChar_cons ',' s hc, hnc, e1, e2, e3, e4, if_true, if_false]

/-! ### Serializer structure and value lemmas for the round trip -/

theorem serialize_elements_eq (e : value) :
    ∀ tl, serialize_elements (e :: tl) = serialize e ++ commaSep tl := by
  intro tl
  induction tl generalizing e with
  | nil => simp [serialize_elements, commaSep]
  | cons t ts ih =>
    rw [show serialize_elements (e :: t :: ts) = serialize e ++ ',' :: serialize_elements (t :: ts)
      from rfl]
    rw [ih t]
    simp [commaSep]

theorem push_back_array_undefined (e : value) :
    push_back_array .undefined e = .array [e] := rfl

theorem push_back_array_array (ys : List value) (e : value) :
    push_back_array (.array ys) e = .array (ys ++ [e]) := by
  unfold push_back_array
  rw [if_neg (by simp [value.type]), if_neg (by simp [value.type])]
  rfl

theorem pushAll_array (tl : List value) :
    ∀ ys, pushAll (.array ys) tl = .array (ys ++ tl) := by
  induction tl with
  | nil => intro ys; simp [pushAll]
  | cons t ts ih =>
    intro ys
    rw [show pushAll (.array ys) (t :: ts) = pushAll (push_back_array (.array ys) t) ts from rfl]
    rw [push_back_array_array, ih]
    simp

theorem pushAll_undefined (e : value) (tl : List value) :
    pushAll .undefined (e :: tl) = .array (e :: tl) := by
  rw [show pushAll .undefined (e :: tl) = pushAll (push_back_array .undefined e) tl from rfl]
  rw [push_back_array_undefined, pushAll_array]
  simp

theorem good_toBool (v : value) (h : good v = true) : v.toBool = true := by
  cases v <;> first
    | rfl
    | (exact absurd h (by simp [good]))

mutual
theorem good_comparable (v : value) (h : good v = true) : comparable v = true := by
  cases v with
  | array xs =>
    rw [show good (.array xs) = (!xs.isEmpty && goodL xs) from rfl] at h
    rw [Bool.and_eq_true] at h
    rw [show comparable (.array xs) = comparableL xs from rfl]
    exact goodL_comparableL xs h.2
  | string s => rfl
  | number q => rfl
  | true_ => rfl
  | false_ => rfl
  | object p => exact absurd h (by simp [good])
  | null => exact absurd h (by simp [good])
  | byte b => exact absurd h (by simp [good])
  | int32 n => exact absurd h (by simp [good])
  | int64 n => exact absurd h (by simp [good])
  | date n => exact absurd h (by simp [good])
  | undefined => exact absurd h (by simp [good])
termination_by sizeOf v

theorem goodL_comparableL (xs : List value) (h : goodL xs = true) :
    comparableL xs = true := by
  match xs with
  | [] => rfl
  | x :: tl =>
    rw [show goodL (x :: tl) = (good x && goodL tl) from rfl, Bool.and_eq_true] at h
    rw [show comparableL (x :: tl) = (comparable x && comparableL tl) from rfl,
      Bool.and_eq_true]
    exact ⟨good_comparable x h.1, goodL_comparableL tl h.2⟩
termination_by sizeOf xs
end

mutual
theorem eq_refl_comparable (v : value) (h : comparable v = true) :
    eq_element v v = true := by
  cases v with
  | array xs =>
    rw [show comparable (.array xs) = comparableL xs from rfl] at h
    rw [show eq_element (.array xs) (.array xs)
      = (xs.length == xs.length && eq_elements xs xs) from rfl]
    simp only [beq_self_eq_true, Bool.true_and]
    exact eq_refl_comparableL xs h
  | string s =>
    rw [show eq_element (.string s) (.string s) = string_eq s s from rfl]
    unfold string_eq
    simp [strcmp_self]
  | number q => simp [eq_element]
  | object p => simp [eq_element]
  | true_ => rfl
  | false_ => rfl
  | byte b =>
    rw [show eq_element (.byte b) (.byte b) = byte_eq b b from rfl]
    simp [byte_eq]
  | int32 n => simp [eq_element]
  | int64 n => simp [eq_element]
  | date n => simp [eq_element]
  | null => exact absurd h (by simp [comparable])
  | undefined => exact absurd h (by simp [comparable])
termination_by sizeOf v

theorem eq_refl_comparableL (xs : List value) (h : comparableL xs = true) :
    eq_elements xs xs = true := by
  match xs with
  | [] => rfl
  | x :: tl =>
    rw [show comparableL (x :: tl) = (comparable x && comparableL tl) from rfl,
      Bool.and_eq_true] at h
    rw [show eq_elements (x :: tl) (x :: tl) = (eq_element x x && eq_elements tl tl) from rfl,
      Bool.and_eq_true]
    exact ⟨eq_refl_comparable x h.1, eq_refl_comparableL tl h.2⟩
termination_by sizeOf xs
end

theorem fmtG6_int (q : ℚ) (hden : q.den = 1) (hlt : q.num.natAbs < 1000000) :
    fmtG6 q = (if q.num < 0 then '-' :: natDigits q.num.natAbs
      else natDigits q.num.natAbs) := by
  unfold fmtG6
  by_cases h0 : q.num = 0
  · rw [if_pos h0, h0]
    norm_num [natDigits]
  · rw [if_neg h0, hden]
    have hpos : 0 < q.num.natAbs := Int.natAbs_pos.mpr h0
    by_cases hneg : q.num < 0
    · rw [if_pos hneg, if_pos hneg, fmtG6pos_int _ hpos hlt]
    · rw [if_neg hneg, if_neg hneg, fmtG6pos_int _ hpos hlt]

theorem digit_not_space (c : Char) (h : isDigitChar c = true) : isSpaceChar c = false := by
  have hb := isDigitChar_bounds c h
  simp [isSpaceChar]
  omega

theorem digit_head_facts (c : Char) (h : isDigitChar c = true) :
    isSpaceChar c = false ∧ c ≠ ']' ∧ c ≠ braceR ∧ c ≠ ',' ∧ c ≠ '[' ∧
      c ≠ quoteD ∧ c ≠ quoteS ∧ c ≠ 'f' ∧ c ≠ 't' ∧ c ≠ 'n' := by
  refine ⟨digit_not_space c h, ?_, ?_, ?_, ?_, ?_, ?_, ?_, ?_, ?_⟩ <;>
    exact fun he => by subst he; exact absurd h (by decide)

theorem rat_of_den_one (q : ℚ) (h : q.den = 1) : ((q.num : Int) : ℚ) = q := by
  conv_rhs => rw [← Rat.num_div_den q]
  rw [h]
  simp

theorem rat_natAbs_nonneg (z : Int) (h : 0 ≤ z) : ((z.natAbs : Nat) : ℚ) = (z : ℚ) := by
  have h2 : (z.natAbs : Int) = z := Int.natAbs_of_nonneg h
  calc ((z.natAbs : Nat) : ℚ) = ((z.natAbs : Int) : ℚ) := (Int.cast_natCast z.natAbs).symm
    _ = (z : ℚ) := by rw [h2]

theorem rat_natAbs_neg (z : Int) (h : z < 0) : -((z.natAbs : Nat) : ℚ) = (z : ℚ) := by
  have h2 : (z.natAbs : Int) = -z := Int.ofNat_natAbs_of_nonpos (le_of_lt h)
  calc -((z.natAbs : Nat) : ℚ) = -((z.natAbs : Int) : ℚ) := by rw [Int.cast_natCast]
    _ = (z : ℚ) := by rw [h2]; simp

theorem read_value_number (q : ℚ) (hden : q.den = 1) (habs : q.num.natAbs < 1000000)
    (rest : List Char) (hsafe : safeTail rest = true) (fuel : Nat) :
    read_value (fuel + 1) (fmtG6 q ++ rest) = .ok (.number q, rest) := by
  have hfmt := fmtG6_int q hden habs
  by_cases hneg : q.num < 0
  · rw [hfmt, if_pos hneg]
    rw [show (('-' :: natDigits q.num.natAbs) ++ rest)
      = '-' :: (natDigits q.num.natAbs ++ rest) from rfl]
    rw [read_value_other '-' _ fuel (by decide) (eq_false (by decide)) (eq_false (by decide))
      (eq_false (by decide)) (eq_false (by decide)) (eq_false (by decide))
      (eq_false (by decide)) (eq_false (by decide))]
    rw [extractNumber_neg_nat _ rest hsafe]
    rw [rat_natAbs_neg q.num hneg, rat_of_den_one q hden]
  · rw [hfmt, if_neg hneg]
    obtain ⟨d, ds, hcons, hd⟩ := natDigits_head q.num.natAbs
    obtain ⟨hsp, n1, n2, n3, n4, n5, n6, n7, n8, n9⟩ := digit_head_facts d hd
    rw [hcons, show ((d :: ds) ++ rest) = d :: (ds ++ rest) from rfl]
    rw [read_value_other d _ fuel hsp (eq_false (by simp [n1, n2])) (eq_false n3)
      (eq_false n4) (eq_false (by simp [n5, n6])) (eq_false n7) (eq_false n8) (eq_false n9)]
    rw [show (d :: (ds ++ rest)) = (d :: ds) ++ rest from rfl, ← hcons]
    rw [extractNumber_nat _ rest hsafe]
    rw [rat_natAbs_nonneg q.num (by omega), rat_of_den_one q hden]

theorem read_value_bracket (fuel : Nat) (s : List Char) :
    read_value (fuel + 1) ('[' :: s) = read_array_loop fuel .undefined s := rfl

theorem read_value_rbracket (fuel : Nat) (s : List Char) :
    read_value (fuel + 1) (']' :: s) = .ok (.undefined, s) := rfl

theorem safeTail_commaSep (tl : List value) (rest : List Char) :
    safeTail (commaSep tl ++ ']' :: rest) = true := by
  cases tl with
  | nil => rfl
  | cons t ts =>
    rw [show commaSep (t :: ts) = ',' :: serialize t ++ commaSep ts from rfl]
    rfl

theorem serialize_head_good (v : value) (hg : good v = true) :
    ∃ c t, serialize v = c :: t ∧ isSpaceChar c = false ∧
      c ≠ ',' ∧ c ≠ ']' ∧ c ≠ braceR := by
  cases v with
  | string s => exact ⟨quoteD, s ++ [quoteD], rfl, by decide, by decide, by decide, by decide⟩
  | number q =>
    rw [show good (.number q) = (q.den == 1 && decide (q.num.natAbs < 1000000)) from rfl,
      Bool.and_eq_true] at hg
    have hden : q.den = 1 := by simpa using hg.1
    have habs : q.num.natAbs < 1000000 := by simpa using hg.2
    have hfmt := fmtG6_int q hden habs
    rw [show serialize (.number q) = fmtG6 q from rfl, hfmt]
    by_cases hneg : q.num < 0
    · rw [if_pos hneg]
      exact ⟨'-', _, rfl, by decide, by decide, by decide, by decide⟩
    · rw [if_neg hneg]
      obtain ⟨d, ds, hcons, hd⟩ := natDigits_head q.num.natAbs
      obtain ⟨hsp, m1, m2, m3, _⟩ := digit_head_facts d hd
      exact ⟨d, ds, hcons, hsp, m3, m1, m2⟩
  | array xs =>
    exact ⟨'[', _, rfl, by decide, by decide, by decide, by decide⟩
  | true_ => exact ⟨'t', _, rfl, by decide, by decide, by decide, by decide⟩
  | false_ => exact ⟨'f', _, rfl, by decide, by decide, by decide, by decide⟩
  | object p => exact absurd hg (by simp [good])
  | null => exact absurd hg (by simp [good])
  | byte b => exact absurd hg (by simp [good])
  | int32 n => exact absurd hg (by simp [good])
  | int64 n => exact absurd hg (by simp [good])
  | date n => exact absurd hg (by simp [good])
  | undefined => exact absurd hg (by simp [good])

theorem ts_pos (v : value) : 1 ≤ ts v := by
  cases v <;> simp [ts]

theorem rt_bound : ∀ N : Nat,
    (∀ v rest fuel, sizeOf v ≤ N → good v = true → safeTail rest = true → ts v ≤ fuel →
      read_value fuel (serialize v ++ rest) = .ok (v, rest)) ∧
    (∀ es v rest fuel, sizeOf es ≤ N → goodL es = true → tsL es ≤ fuel →
      read_array_loop fuel v (commaSep es ++ ']' :: rest) = .ok (pushAll v es, rest)) := by
  intro N
  induction N with
  | zero =>
    constructor
    · intro v rest fuel hsz
      exfalso
      cases v <;> simp at hsz
    · intro es v rest fuel hsz
      exfalso
      cases es <;> simp at hsz
  | succ N ih =>
    obtain ⟨ihA, ihB⟩ := ih
    constructor
    · intro v rest fuel hsz hg hsafe hfuel
      cases v with
      | string s =>
        rw [show good (.string s) = s.all goodChar from rfl] at hg
        obtain ⟨f, rfl⟩ : ∃ f, fuel = f + 1 := ⟨fuel - 1, by simp [ts] at hfuel; omega⟩
        rw [show serialize (.string s) ++ rest = quoteD :: (s ++ quoteD :: rest) from by
          rw [show serialize (.string s) = quoteD :: s ++ [quoteD] from rfl]; simp]
        exact read_value_string_open s rest f hg
      | number q =>
        rw [show good (.number q) = (q.den == 1 && decide (q.num.natAbs < 1000000)) from rfl,
          Bool.and_eq_true] at hg
        obtain ⟨f, rfl⟩ : ∃ f, fuel = f + 1 := ⟨fuel - 1, by simp [ts] at hfuel; omega⟩
        exact read_value_number q (by simpa using hg.1) (by simpa using hg.2) rest hsafe f
      | true_ =>
        obtain ⟨f, rfl⟩ : ∃ f, fuel = f + 1 := ⟨fuel - 1, by simp [ts] at hfuel; omega⟩
        exact read_value_true_lit f rest
      | false_ =>
        obtain ⟨f, rfl⟩ : ∃ f, fuel = f + 1 := ⟨fuel - 1, by simp [ts] at hfuel; omega⟩
        exact read_value_false_lit f rest
      | array xs =>
        rw [show good (.array xs) = (!xs.isEmpty && goodL xs) from rfl,
          Bool.and_eq_true] at hg
        cases xs with
        | nil => simp at hg
        | cons e tl =>
          have hgl : goodL (e :: tl) = true := hg.2
          rw [show goodL (e :: tl) = (good e && goodL tl) from rfl, Bool.and_eq_true] at hgl
          have hpos := ts_pos e
          have hts : 1 + tsL (e :: tl) ≤ fuel := by simpa [ts] using hfuel
          have htsc : 1 + ts e + tsL tl ≤ tsL (e :: tl) := by simp [tsL]
          have hsz2 : sizeOf e ≤ N ∧ sizeOf tl ≤ N := by
            simp at hsz
            omega
          obtain ⟨f, rfl⟩ : ∃ f, fuel = f + 1 := ⟨fuel - 1, by omega⟩
          obtain ⟨f1, rfl⟩ : ∃ f1, f = f1 + 1 := ⟨f - 1, by omega⟩
          have hshape : serialize (.array (e :: tl)) ++ rest
              = '[' :: (serialize e ++ (commaSep tl ++ ']' :: rest)) := by
            rw [show serialize (.array (e :: tl))
              = '[' :: serialize_elements (e :: tl) ++ [']'] from rfl, serialize_elements_eq]
            simp
          rw [hshape, read_value_bracket]
          have hrv := ihA e (commaSep tl ++ ']' :: rest) f1 hsz2.1 hgl.1
            (safeTail_commaSep tl rest) (by omega)
          have hloop := ihB tl (.array [e]) rest f1 hsz2.2 hgl.2 (by omega)
          rw [show read_array_loop (f1 + 1) .undefined
              (serialize e ++ (commaSep tl ++ ']' :: rest))
            = (match read_value f1 (serialize e ++ (commaSep tl ++ ']' :: rest)) with
               | .error err => .error err
               | .ok (a, r) =>
                 if a.toBool then read_array_loop f1 (push_back_array .undefined a) r
                 else .ok (.undefined, r)) from rfl]
          rw [hrv]
          simp only [good_toBool e hgl.1, if_true, push_back_array_undefined, hloop,
            pushAll_array]
          simp
      | object p => exact absurd hg (by simp [good])
      | null => exact absurd hg (by simp [good])
      | byte b => exact absurd hg (by simp [good])
      | int32 n => exact absurd hg (by simp [good])
      | int64 n => exact absurd hg (by simp [good])
      | date n => exact absurd hg (by simp [good])
      | undefined => exact absurd hg (by simp [good])
    · intro es v rest fuel hsz hg hfuel
      cases es with
      | nil =>
        have h2 : 2 ≤ fuel := by simpa [tsL] using hfuel
        obtain ⟨f, rfl⟩ : ∃ f, fuel = f + 1 := ⟨fuel - 1, by omega⟩
        obtain ⟨f1, rfl⟩ : ∃ f1, f = f1 + 1 := ⟨f - 1, by omega⟩
        rw [show commaSep [] ++ ']' :: rest = ']' :: rest from rfl]
        rw [show read_array_loop (f1 + 1 + 1) v (']' :: rest)
          = (match read_value (f1 + 1) (']' :: rest) with
             | .error err => .error err
             | .ok (a, r) => if a.toBool then read_array_loop (f1 + 1) (push_back_array v a) r
               else .ok (v, r)) from rfl]
        rw [read_value_rbracket]
        simp [value.toBool, value.type, pushAll]
      | cons e tl =>
        rw [show goodL (e :: tl) = (good e && goodL tl) from rfl, Bool.and_eq_true] at hg
        have hpos := ts_pos e
        have hts : 1 + ts e + tsL tl ≤ fuel := by simpa [tsL] using hfuel
        have hsz2 : sizeOf e ≤ N ∧ sizeOf tl ≤ N := by
          simp at hsz
          omega
        obtain ⟨f, rfl⟩ : ∃ f, fuel = f + 1 := ⟨fuel - 1, by omega⟩
        obtain ⟨f1, rfl⟩ : ∃ f1, f = f1 + 1 := ⟨f - 1, by omega⟩
        rw [show commaSep (e :: tl) ++ ']' :: rest
          = ',' :: (serialize e ++ (commaSep tl ++ ']' :: rest)) from by
            rw [show commaSep (e :: tl) = ',' :: serialize e ++ commaSep tl from rfl]
            simp]
        rw [show read_array_loop (f1 + 1 + 1) v
            (',' :: (serialize e ++ (commaSep tl ++ ']' :: rest)))
          = (match read_value (f1 + 1) (',' :: (serialize e ++ (commaSep tl ++ ']' :: rest))) with
             | .error err => .error err
             | .ok (a, r) => if a.toBool then read_array_loop (f1 + 1) (push_back_array v a) r
               else .ok (v, r)) from rfl]
        obtain ⟨c, t, hserial, hcsp, hc1, hc2, hc3⟩ := serialize_head_good e hg.1
        have hnc : nextChar (serialize e ++ (commaSep tl ++ ']' :: rest))
            = some (c, t ++ (commaSep tl ++ ']' :: rest)) := by
          rw [hserial]
          exact nextChar_cons c _ hcsp
        rw [read_value_comma f1 _ c _ hnc hc1 hc2 hc3]
        rw [ihA e (commaSep tl ++ ']' :: rest) (f1 + 1) hsz2.1 hg.1
          (safeTail_commaSep tl rest) (by omega)]
        simp only [good_toBool e hg.1, if_true]
        rw [ihB tl (push_back_array v e) rest (f1 + 1) hsz2.2 hg.2 (by omega)]
        rfl

theorem rt_val (v : value) (rest : List Char) (fuel : Nat) (hg : good v = true)
    (hsafe : safeTail rest = true) (hfuel : ts v ≤ fuel) :
    read_value fuel (serialize v ++ rest) = .ok (v, rest) :=
  (rt_bound (sizeOf v)).1 v rest fuel (Nat.le_refl _) hg hsafe hfuel

theorem serialize_good_len (v : value) (h : good v = true) :
    1 ≤ (serialize v).length := by
  obtain ⟨c, t, hc, _⟩ := serialize_head_good v h
  rw [hc]
  simp

theorem ts_serialize_bound : ∀ N : Nat,
    (∀ v, sizeOf v ≤ N → good v = true → ts v ≤ 2 * (serialize v).length) ∧
    (∀ es, sizeOf es ≤ N → goodL es = true →
      tsL es ≤ 2 * (serialize_elements es).length + 3) := by
  intro N
  induction N with
  | zero =>
    constructor
    · intro v hsz
      exfalso
      cases v <;> simp at hsz
    · intro es hsz
      exfalso
      cases es <;> simp at hsz
  | succ N ih =>
    obtain ⟨ihA, ihB⟩ := ih
    constructor
    · intro v hsz hg
      cases v with
      | array xs =>
        rw [show good (.array xs) = (!xs.isEmpty && goodL xs) from rfl,
          Bool.and_eq_true] at hg
        have hszL : sizeOf xs ≤ N := by
          simp at hsz
          omega
        have hB := ihB xs hszL hg.2
        have hlen : (serialize (.array xs)).length = (serialize_elements xs).length + 2 := by
          rw [show serialize (.array xs) = '[' :: serialize_elements xs ++ [']'] from rfl]
          simp
        rw [show ts (.array xs) = 1 + tsL xs from rfl, hlen]
        omega
      | string s =>
        have := serialize_good_len (.string s) hg
        rw [show ts (.string s) = 1 from rfl]
        omega
      | number q =>
        have := serialize_good_len (.number q) hg
        rw [show ts (.number q) = 1 from rfl]
        omega
      | true_ =>
        rw [show ts .true_ = 1 from rfl]
        simp [serialize]
      | false_ =>
        rw [show ts .false_ = 1 from rfl]
        simp [serialize]
      | object p => exact absurd hg (by simp [good])
      | null => exact absurd hg (by simp [good])
      | byte b => exact absurd hg (by simp [good])
      | int32 n => exact absurd hg (by simp [good])
      | int64 n => exact absurd hg (by simp [good])
      | date n => exact absurd hg (by simp [good])
      | undefined => exact absurd hg (by simp [good])
    · intro es hsz hg
      cases es with
      | nil =>
        rw [show tsL ([] : List value) = 2 from rfl]
        omega
      | cons e tl =>
        rw [show goodL (e :: tl) = (good e && goodL tl) from rfl, Bool.and_eq_true] at hg
        have hsz2 : sizeOf e ≤ N ∧ sizeOf tl ≤ N := by
          simp at hsz
          omega
        have hA := ihA e hsz2.1 hg.1
        rw [show tsL (e :: tl) = 1 + ts e + tsL tl from rfl]
        cases tl with
        | nil =>
          rw [show serialize_elements [e] = serialize e from rfl]
          rw [show tsL ([] : List value) = 2 from rfl]
          omega
        | cons t ts2 =>
          have hB := ihB (t :: ts2) hsz2.2 hg.2
          rw [show serialize_elements (e :: t :: ts2)
            = serialize e ++ ',' :: serialize_elements (t :: ts2) from rfl]
          simp only [List.length_append, List.length_cons]
          omega

/-- Claim C1 (amended): for every Value built only from String, Number,
Array, True and False nodes, in which every String consists of plain
characters (no quotes, no whitespace, no NUL), every Number is an integer
of magnitude below 10^6, and every Array is non-empty, parsing the text
produced by serializing the value returns exactly the original Value with
no input left over, and that Value is §4.2-equal to itself. -/
theorem round_trip_good (v : value) (h : good v = true) :
    parse (serialize v) = .ok (v, []) ∧ eq_element v v = true := by
  constructor
  · unfold parse
    have hb := (ts_serialize_bound (sizeOf v)).1 v (Nat.le_refl _) h
    have := rt_val v [] (2 * (serialize v).length + 2) h rfl (by omega)
    simpa using this
  · exact eq_refl_comparable v (good_comparable v h)

theorem round_trip_good_w :
    good (.array [.string ['h'], .number 12, .true_]) = true ∧
      (parse (serialize (.array [.string ['h'], .number 12, .true_]))
          = .ok (.array [.string ['h'], .number 12, .true_], []) ∧
        eq_element (.array [.string ['h'], .number 12, .true_])
          (.array [.string ['h'], .number 12, .true_]) = true) :=
  ⟨by decide, round_trip_good _ (by decide)⟩

/-- Claim C1 counterexample: a Null value serializes to `null` and reparses
to the identical tree, yet the reparsed Value is not §4.2-equal to the
original, because Null never equals Null. -/
theorem round_trip_null_cex :
    parse (serialize .null) = .ok (.null, []) ∧ eq_element .null .null = false :=
  ⟨rfl, rfl⟩
